import Mathlib

/-!  Verification of the pragmatic sentence segmenter's protection pipeline
     (`tokenize/pragmatic.go`): the rule engine (`Rule.Sub`), the number /
     abbreviation / AM-PM / ellipsis protection rule sets, and the
     quoted-bracketed span protector (`subPat`, `replaceBetweenQuotes`,
     `punctuationReplacer`).

     Texts are modelled as `List Char`.  Go's `regexp` package (RE2 with
     leftmost-first submatch semantics: earliest start position wins, and at
     that position alternation prefers its left arm and quantifiers are
     greedy) is modelled by a backtracking matcher over a small regex AST
     covering exactly the constructs the source's patterns use.  Fallible
     operations (Go runtime panics: out-of-range index and slice bounds)
     are modelled with explicit `panicked` results; the unbounded
     `for`-loop of `Rule.Sub` is modelled by a fuel-indexed iteration
     together with the predicates `SubEvalsTo` (the loop terminates with
     the given result) and `LoopsForever` (no amount of fuel finishes). -/

/-- Character class `\s` (Go regexp Perl class, `[\t\n\f\r ]`). -/
def goSpace (c : Char) : Bool :=
  c == '\t' || c == '\n' || c == '\x0c' || c == '\r' || c == ' '

/-- Character class `\S` (complement of `\s`). -/
def goNonSpace (c : Char) : Bool := !(goSpace c)

/-- Character class `\d` (`[0-9]`). -/
def goDigit (c : Char) : Bool := decide ('0' ≤ c) && decide (c ≤ '9')

/-- Character class `[A-Z]`. -/
def goUpper (c : Char) : Bool := decide ('A' ≤ c) && decide (c ≤ 'Z')

/-- Character class `[a-z]`. -/
def goLower (c : Char) : Bool := decide ('a' ≤ c) && decide (c ≤ 'z')

/-- Character class `[a-zA-Z]`. -/
def goAlpha (c : Char) : Bool := goUpper c || goLower c

/-- The regex metacharacter `.` : any character except a newline. -/
def goAnyNotNL (c : Char) : Bool := c != '\n'

/-- Regex AST: the fragment of Go `regexp` syntax used by the source's
    patterns.  `group` is a numbered capturing group; `bol` / `eol` are the
    anchors `^` and `$` / `\z` (the source compiles its patterns without
    multiline mode, so both anchor to the whole text, `$` and `\z` being
    equivalent). -/
inductive RE where
  | eps
  | lit (c : Char)
  | cls (p : Char → Bool)
  | seq (a b : RE)
  | alt (a b : RE)
  | star (a : RE)
  | group (n : Nat) (a : RE)
  | bol
  | eol

/-- `a+` (one or more, greedy): `a` followed by `a*`. -/
def RE.plus (a : RE) : RE := .seq a (.star a)

/-- Structural size of a pattern (used only to compute a sufficient fuel
    bound for the backtracking matcher). -/
def RE.size : RE → Nat
  | .eps | .lit _ | .cls _ | .bol | .eol => 1
  | .seq a b | .alt a b => a.size + b.size + 1
  | .star a | .group _ a => a.size + 1

/-- Largest capturing-group index occurring in the pattern (`0` when the
    pattern defines no capturing group).  Go's `FindStringSubmatchIndex`
    returns a slice holding index pairs for the whole match and for groups
    `1 .. maxGroup`, so its length is `2 * (maxGroup + 1)`. -/
def RE.maxGroup : RE → Nat
  | .eps | .lit _ | .cls _ | .bol | .eol => 0
  | .seq a b | .alt a b => max a.maxGroup b.maxGroup
  | .star a => a.maxGroup
  | .group n a => max n a.maxGroup

/-- Capture records `(group index, start, end)`, in the order the groups
    closed along the chosen match path; when a group matches repeatedly the
    last record is the one Go reports. -/
abbrev Caps := List (Nat × Nat × Nat)

/-- All ways pattern `re` can match starting at position `i` of `txt`,
    most preferred first (greedy quantifiers, left-biased alternation):
    the head of the list is the match Go's leftmost-first engine selects at
    that position.  A `star` iteration must consume at least one
    character (RE2 does not repeat an empty-width match).  `fuel` bounds
    the recursion depth; every recursive call decreases it, and
    `mreFuel` below always supplies enough. -/
def mre (txt : List Char) : Nat → RE → Nat → List (Nat × Caps)
  | 0, _, _ => []
  | fuel+1, re, i =>
    match re with
    | .eps => [(i, [])]
    | .lit c =>
      match txt[i]? with
      | some d => if d == c then [(i+1, [])] else []
      | none => []
    | .cls p =>
      match txt[i]? with
      | some d => if p d then [(i+1, [])] else []
      | none => []
    | .bol => if i == 0 then [(i, [])] else []
    | .eol => if i == txt.length then [(i, [])] else []
    | .alt a b => mre txt fuel a i ++ mre txt fuel b i
    | .seq a b =>
      (mre txt fuel a i).flatMap fun ra =>
        (mre txt fuel b ra.1).map fun rb => (rb.1, ra.2 ++ rb.2)
    | .group n a =>
      (mre txt fuel a i).map fun ra => (ra.1, (n, i, ra.1) :: ra.2)
    | .star a =>
      (((mre txt fuel a i).filter fun ra => decide (i < ra.1)).flatMap fun ra =>
        (mre txt fuel (.star a) ra.1).map fun rb => (rb.1, ra.2 ++ rb.2))
      ++ [(i, [])]

/-- Fuel sufficient for `mre` on this text and pattern: the recursion
    alternates structural descent (bounded by the pattern size) and `star`
    restarts at strictly larger positions (bounded by the text length). -/
def mreFuel (txt : List Char) (re : RE) : Nat := (re.size + 1) * (txt.length + 2)

/-- The preferred match of `re` at exactly position `i` (end position and
    captures), if any. -/
def matchAt (txt : List Char) (re : RE) (i : Nat) : Option (Nat × Caps) :=
  (mre txt (mreFuel txt re) re i).head?

/-- Scan start positions `i, i+1, ...` (up to and including `txt.length`)
    and return the first position where the pattern matches, with the
    preferred match there: Go's leftmost-first `FindStringSubmatchIndex`. -/
def scanFrom (txt : List Char) (re : RE) : Nat → Nat → Option (Nat × Nat × Caps)
  | 0, _ => none
  | sf+1, i =>
    if i ≤ txt.length then
      match matchAt txt re i with
      | some (j, caps) => some (i, j, caps)
      | none => scanFrom txt re sf (i+1)
    else none

/-- `FindStringSubmatchIndex` on the whole text: leftmost match
    `(start, end, captures)` or `none`. -/
def reFind (txt : List Char) (re : RE) : Option (Nat × Nat × Caps) :=
  scanFrom txt re (txt.length + 2) 0

/-- The index pair Go reports for capturing group `n`: the last record for
    `n` along the match path, or `none` (Go: `-1, -1`) when the group did
    not participate in the match. -/
def lookupGroup (n : Nat) (caps : Caps) : Option (Nat × Nat) :=
  (caps.reverse.find? fun e => e.1 == n).map fun e => e.2

/-- A Rule associates a regular expression with a replacement string
    (source: `type Rule struct { Pattern *regexp.Regexp; Replacement string }`). -/
structure Rule where
  Pattern : RE
  Replacement : List Char

/-- Outcome of one iteration of the loop body of `Rule.Sub`. -/
inductive StepRes where
  | noMatch
  | panicked
  | next (t : List Char)
deriving DecidableEq

/-- One iteration of `Rule.Sub`'s loop: find the leftmost match; on a
    match, Go evaluates `text[:loc[2]] + r.Replacement + text[loc[3]:]`
    where `loc[2], loc[3]` is capturing group 1's index pair.  When the
    pattern has no capturing group the returned slice has length 2 and
    `loc[2]` panics (index out of range); when group 1 did not participate
    in the match its indices are `-1` and `text[:-1]` panics (slice bounds
    out of range).  Both panics are modelled by `panicked`. -/
def subStep (r : Rule) (t : List Char) : StepRes :=
  match reFind t r.Pattern with
  | none => .noMatch
  | some (_, _, caps) =>
    if r.Pattern.maxGroup == 0 then .panicked
    else
      match lookupGroup 1 caps with
      | none => .panicked
      | some (s, e) => .next (t.take s ++ r.Replacement ++ t.drop e)

/-- Result of running `Rule.Sub`'s loop with a given amount of fuel. -/
inductive SubRes where
  | outOfFuel
  | panicked
  | ok (t : List Char)
deriving DecidableEq

/-- `Sub` replaces all occurrences of `Pattern`'s capturing region with
    `Replacement`, repeating until no match remains (source: `func
    (r *Rule) Sub(text string) string`).  The Go loop is unbounded; `fuel`
    counts loop iterations so that non-termination is observable as
    `outOfFuel` at every fuel. -/
def subAux (r : Rule) : Nat → List Char → SubRes
  | 0, _ => .outOfFuel
  | fuel+1, t =>
    match subStep r t with
    | .noMatch => .ok t
    | .panicked => .panicked
    | .next t' => subAux r fuel t'

/-- The loop of `Rule.Sub` terminates on `t` with result `res` (returns
    normally or panics): some iteration bound suffices. -/
def SubEvalsTo (r : Rule) (t : List Char) (res : SubRes) : Prop :=
  ∃ fuel, subAux r fuel t = res

/-- The loop of `Rule.Sub` never finishes on `t`: every iteration bound is
    exhausted. -/
def LoopsForever (r : Rule) (t : List Char) : Prop :=
  ∀ fuel, subAux r fuel t = .outOfFuel

/-- Apply a list of rules in order, each by `Rule.Sub`, propagating a
    panic and sharing the iteration bound. -/
def applyRules : List Rule → Nat → List Char → SubRes
  | [], _, t => .ok t
  | r :: rs, fuel, t =>
    match subAux r fuel t with
    | .ok t' => applyRules rs fuel t'
    | e => e

/-- Sequential application of the rules terminates with result `res`. -/
def RulesEvalTo (rs : List Rule) (t : List Char) (res : SubRes) : Prop :=
  ∃ fuel, applyRules rs fuel t = res

/-!  The number protection rule set (source section `// numbers`). -/

/-- Go pattern `(\.)\d`, replacement `"∯"`. -/
def periodBeforeNumberRule : Rule :=
  { Pattern := .seq (.group 1 (.lit '.')) (.cls goDigit)
    Replacement := ['∯'] }

/-- Go pattern `\d(\.)\S`, replacement `"∯"`. -/
def numberAfterPeriodBeforeLetterRule : Rule :=
  { Pattern := .seq (.cls goDigit) (.seq (.group 1 (.lit '.')) (.cls goNonSpace))
    Replacement := ['∯'] }

/-- Go pattern `[\n\r]\d(\.)(?:[\s\S]|\))`, replacement `"∯"`.
    `[\s\S]` is any character (newline included). -/
def newLineNumberPeriodSpaceLetterRule : Rule :=
  { Pattern := .seq (.cls fun c => c == '\n' || c == '\r')
      (.seq (.cls goDigit)
        (.seq (.group 1 (.lit '.')) (.alt (.cls fun _ => true) (.lit ')'))))
    Replacement := ['∯'] }

/-- Go pattern `^\d(\.)(?:[\s\S]|\))`, replacement `"∯"`. -/
def startLineNumberPeriodRule : Rule :=
  { Pattern := .seq .bol
      (.seq (.cls goDigit)
        (.seq (.group 1 (.lit '.')) (.alt (.cls fun _ => true) (.lit ')'))))
    Replacement := ['∯'] }

/-- Go pattern `^\d\d(\.)(?:[\s\S]|\))`, replacement `"∯"`. -/
def startLineTwoDigitNumberPeriodRule : Rule :=
  { Pattern := .seq .bol
      (.seq (.cls goDigit)
        (.seq (.cls goDigit)
          (.seq (.group 1 (.lit '.')) (.alt (.cls fun _ => true) (.lit ')')))))
    Replacement := ['∯'] }

/-- The five number rules, in source order. -/
def allNumberRules : List Rule :=
  [periodBeforeNumberRule, numberAfterPeriodBeforeLetterRule,
   newLineNumberPeriodSpaceLetterRule, startLineNumberPeriodRule,
   startLineTwoDigitNumberPeriodRule]

/-!  Common rules (source section `// common`). -/

/-- Go pattern `(\.)'s\s|(\.)'s$|(\.)'s\z`, replacement `"∯"`.  Three
    alternatives, each capturing its period as its own group (1, 2, 3,
    numbered by order of the opening parentheses). -/
def possessiveAbbreviationRule : Rule :=
  { Pattern :=
      .alt (.seq (.group 1 (.lit '.'))
              (.seq (.lit '\'') (.seq (.lit 's') (.cls goSpace))))
        (.alt (.seq (.group 2 (.lit '.'))
                (.seq (.lit '\'') (.seq (.lit 's') .eol)))
          (.seq (.group 3 (.lit '.'))
            (.seq (.lit '\'') (.seq (.lit 's') .eol))))
    Replacement := ['∯'] }

/-- Go pattern `Co(\.)\sKG`, replacement `"∯"`. -/
def kommanditgesellschaftRule : Rule :=
  { Pattern := .seq (.lit 'C')
      (.seq (.lit 'o')
        (.seq (.group 1 (.lit '.'))
          (.seq (.cls goSpace) (.seq (.lit 'K') (.lit 'G')))))
    Replacement := ['∯'] }

/-!  AM/PM rules (source section `// AM/PM`). -/

/-- Go pattern `P∯M(∯)\s[A-Z]`, replacement `"."`. -/
def upperCasePmRule : Rule :=
  { Pattern := .seq (.lit 'P')
      (.seq (.lit '∯')
        (.seq (.lit 'M')
          (.seq (.group 1 (.lit '∯')) (.seq (.cls goSpace) (.cls goUpper)))))
    Replacement := ['.'] }

/-- Go pattern `A∯M(∯)\s[A-Z]`, replacement `"."`. -/
def upperCaseAmRule : Rule :=
  { Pattern := .seq (.lit 'A')
      (.seq (.lit '∯')
        (.seq (.lit 'M')
          (.seq (.group 1 (.lit '∯')) (.seq (.cls goSpace) (.cls goUpper)))))
    Replacement := ['.'] }

/-- Go pattern `p∯m(∯)\s[A-Z]`, replacement `"."`. -/
def lowerCasePmRule : Rule :=
  { Pattern := .seq (.lit 'p')
      (.seq (.lit '∯')
        (.seq (.lit 'm')
          (.seq (.group 1 (.lit '∯')) (.seq (.cls goSpace) (.cls goUpper)))))
    Replacement := ['.'] }

/-- Go pattern `a∯m(∯)\s[A-Z]`, replacement `"."`. -/
def lowerCaseAmRule : Rule :=
  { Pattern := .seq (.lit 'a')
      (.seq (.lit '∯')
        (.seq (.lit 'm')
          (.seq (.group 1 (.lit '∯')) (.seq (.cls goSpace) (.cls goUpper)))))
    Replacement := ['.'] }

/-- The four AM/PM rules, in source order. -/
def allAmPmRules : List Rule :=
  [upperCasePmRule, upperCaseAmRule, lowerCasePmRule, lowerCaseAmRule]

/-!  Single-uppercase-letter (initials) rules. -/

/-- Go pattern `^[A-Z](\.)\s`, replacement `"∯"`. -/
def singleUpperCaseLetterAtStartOfLineRule : Rule :=
  { Pattern := .seq .bol
      (.seq (.cls goUpper) (.seq (.group 1 (.lit '.')) (.cls goSpace)))
    Replacement := ['∯'] }

/-- Go pattern `\s[A-Z]\.\s`, replacement `"∯"`.  Note: this pattern
    defines no capturing group. -/
def singleUpperCaseLetterRule : Rule :=
  { Pattern := .seq (.cls goSpace)
      (.seq (.cls goUpper) (.seq (.lit '.') (.cls goSpace)))
    Replacement := ['∯'] }

/-- The two initials rules, in source order. -/
def allSingleUpperCaseLetterRules : List Rule :=
  [singleUpperCaseLetterAtStartOfLineRule, singleUpperCaseLetterRule]

/-!  Ellipsis rules. -/

/-- Go pattern `(\.\.\.)\s+[A-Z]`, replacement `"☏."`. -/
def threeConsecutiveRule : Rule :=
  { Pattern := .seq (.group 1 (.seq (.lit '.') (.seq (.lit '.') (.lit '.'))))
      (.seq (RE.plus (.cls goSpace)) (.cls goUpper))
    Replacement := "☏.".data }

/-- Go pattern `\S(\.{3}\.)\s[A-Z]`, replacement `"ƪ"`. -/
def fourConsecutiveRule : Rule :=
  { Pattern := .seq (.cls goNonSpace)
      (.seq (.group 1 (.seq (.lit '.') (.seq (.lit '.') (.seq (.lit '.') (.lit '.')))))
        (.seq (.cls goSpace) (.cls goUpper)))
    Replacement := ['ƪ'] }

/-- Go pattern `(\s\.){3}\s`, replacement `"♟"`: group 1 matches three
    times; Go reports the last repetition's indices. -/
def threeSpaceRule : Rule :=
  { Pattern := .seq (.group 1 (.seq (.cls goSpace) (.lit '.')))
      (.seq (.group 1 (.seq (.cls goSpace) (.lit '.')))
        (.seq (.group 1 (.seq (.cls goSpace) (.lit '.'))) (.cls goSpace)))
    Replacement := ['♟'] }

/-- Go pattern `[a-z](\.\s{3}\.(?:\z|$|\n))`, replacement `"♝"`. -/
def fourSpaceRule : Rule :=
  { Pattern := .seq (.cls goLower)
      (.group 1 (.seq (.lit '.')
        (.seq (.cls goSpace)
          (.seq (.cls goSpace)
            (.seq (.cls goSpace)
              (.seq (.lit '.') (.alt .eol (.alt .eol (.lit '\n')))))))))
    Replacement := ['♝'] }

/-- Go pattern `\.\.\.`, replacement `"ƪ"`.  Note: this pattern defines no
    capturing group. -/
def otherThreePeriodRule : Rule :=
  { Pattern := .seq (.lit '.') (.seq (.lit '.') (.lit '.'))
    Replacement := ['ƪ'] }

/-- The five ellipsis rules, in source order. -/
def allEllipsesRules : List Rule :=
  [threeConsecutiveRule, fourConsecutiveRule, threeSpaceRule, fourSpaceRule,
   otherThreePeriodRule]

/-!  Span-delimiting patterns (source section `// between_punctuation`). -/

/-- Body shared by the double/smart/arrow/bracket/paren span patterns:
    `(X+|\\{2}|\\.)*` where `X` is the kind's class of ordinary characters
    (neither a delimiter nor a backslash).  The capturing group is group 1
    of each of those patterns. -/
def spanBody (ordinary : Char → Bool) : RE :=
  .star (.group 1 (.alt (RE.plus (.cls ordinary))
    (.alt (.seq (.lit '\\') (.lit '\\')) (.seq (.lit '\\') (.cls goAnyNotNL)))))

/-- Go pattern `\s'(?:[^']|'[a-zA-Z])*'` (no capturing group). -/
def betweenSingleQuotesRE : RE :=
  .seq (.cls goSpace)
    (.seq (.lit '\'')
      (.seq (.star (.alt (.cls fun c => c != '\'')
                     (.seq (.lit '\'') (.cls goAlpha))))
        (.lit '\'')))

/-- Go pattern `"([^"\\]+|\\{2}|\\.)*"`. -/
def betweenDoubleQuotesRE : RE :=
  .seq (.lit '"')
    (.seq (spanBody fun c => c != '"' && c != '\\') (.lit '"'))

/-- Go pattern `«([^»\\]+|\\{2}|\\.)*»`. -/
def betweenArrowQuotesRE : RE :=
  .seq (.lit '«')
    (.seq (spanBody fun c => c != '»' && c != '\\') (.lit '»'))

/-- Go pattern `“([^”\\]+|\\{2}|\\.)*”`. -/
def betweenSmartQuotesRE : RE :=
  .seq (.lit '“')
    (.seq (spanBody fun c => c != '”' && c != '\\') (.lit '”'))

/-- Go pattern `\[([^\]\\]+|\\{2}|\\.)*\]`. -/
def betweenSquareBracketsRE : RE :=
  .seq (.lit '[')
    (.seq (spanBody fun c => c != ']' && c != '\\') (.lit ']'))

/-- Go pattern `\(([^\(\)\\]+|\\{2}|\\.)*\)`. -/
def betweenParensRE : RE :=
  .seq (.lit '(')
    (.seq (spanBody fun c => c != '(' && c != ')' && c != '\\') (.lit ')'))

/-- Go `FindAllString(text, -1)`: successive non-overlapping leftmost
    matches; search resumes at each match's end (one past it for an empty
    match).  The scan fuel bounds the number of matches, which advance
    strictly, so `txt.length + 2` always suffices. -/
def findAllAux (txt : List Char) (re : RE) : Nat → Nat → List (List Char)
  | 0, _ => []
  | sf+1, i =>
    match scanFrom txt re (txt.length + 2) i with
    | none => []
    | some (s, e, _) =>
      ((txt.drop s).take (e - s)) ::
        findAllAux txt re sf (if s < e then e else e + 1)

/-- All matched substrings of `re` in `txt` (Go `FindAllString`). -/
def findAll (txt : List Char) (re : RE) : List (List Char) :=
  findAllAux txt re (txt.length + 2) 0

/-- Go `unicode.IsSpace` on the characters that can occur here (the
    Latin-1 white space set). -/
def isUnicodeSpace (c : Char) : Bool :=
  c == ' ' || c == '\t' || c == '\n' || c == '\x0b' || c == '\x0c' ||
  c == '\r' || c == '\u0085' || c == '\u00A0'

/-- Go `strings.TrimSpace`. -/
def goTrimSpace (s : List Char) : List Char :=
  ((s.dropWhile isUnicodeSpace).reverse.dropWhile isUnicodeSpace).reverse

/-!  The punctuation replacer (source section `// punctuation_replacer`). -/

/-- The regex-reserved characters escaped before literal-substring
    relocation: `(`, `)`, `[`, `]`, `-`. -/
def reservedChar (c : Char) : Bool :=
  c == '(' || c == ')' || c == '[' || c == ']' || c == '-'

/-- Go `escapeRegexReservedCharacters`: the `strings.NewReplacer` mapping
    each reserved character `c` to `\c`; with single-character old strings
    the replacer is exactly this character map. -/
def escapeRegexReservedCharacters (t : List Char) : List Char :=
  t.flatMap fun c => if reservedChar c then ['\\', c] else [c]

/-- Go `subEscapeRegexReservedCharacters`: the inverse replacer, mapping
    each two-character sequence `\c` (`c` reserved) back to `c`, scanning
    left to right without overlap. -/
def subEscapeRegexReservedCharacters : List Char → List Char
  | [] => []
  | [c] => [c]
  | a :: b :: rest =>
    if a == '\\' && reservedChar b then
      b :: subEscapeRegexReservedCharacters rest
    else
      a :: subEscapeRegexReservedCharacters (b :: rest)

/-- Go `strings.Replace(t, s, b, -1)` body for non-empty `s`: scan left to
    right, replacing each non-overlapping occurrence of `s` with `b`.  The
    fuel is at least `t.length`, and every step consumes at least one
    character, so the `0` case is never reached by `goReplace`. -/
def goReplaceAux (s b : List Char) : Nat → List Char → List Char
  | _, [] => []
  | 0, t => t
  | fuel+1, c :: cs =>
    if s.isPrefixOf (c :: cs) then
      b ++ goReplaceAux s b fuel ((c :: cs).drop s.length)
    else
      c :: goReplaceAux s b fuel cs

/-- Go `strings.Replace(t, s, b, -1)`: replace all non-overlapping
    occurrences of `s` in `t` with `b`; for empty `s` Go inserts `b`
    before every character and at the end. -/
def goReplace (t s b : List Char) : List Char :=
  if s.isEmpty then b ++ t.flatMap fun c => c :: b
  else goReplaceAux s b (t.length + 1) t

/-- Go `punctuationReplacer.sub(content, a, b)`: returns the pair (updated
    global text, updated content) — `repl := strings.Replace(content, a, b,
    -1)`; the global text has every literal occurrence of `content`
    replaced by `repl`. -/
def prSub (text content a b : List Char) : List Char × List Char :=
  let repl := goReplace content a b
  (goReplace text content repl, repl)

/-- The per-match body of `punctuationReplacer.replacePunctuation`: escape
    the match, then run the ordered substitutions (period, ideographic
    full stop, fullwidth period, fullwidth exclamation, ASCII exclamation,
    question mark, question mark + space, and — except for "single"-quote
    spans — the apostrophe), each mirrored into the global text. -/
def prOne (mtype : String) (text m : List Char) : List Char :=
  let m0 := escapeRegexReservedCharacters m
  let p1 := prSub text m0 ['.'] ['∯']
  let p2 := prSub p1.1 p1.2 ['。'] "&ᓰ&".data
  let p3 := prSub p2.1 p2.2 ['．'] "&ᓱ&".data
  let p4 := prSub p3.1 p3.2 ['！'] "&ᓳ&".data
  let p5 := prSub p4.1 p4.2 ['!'] "&ᓴ&".data
  let p6 := prSub p5.1 p5.2 ['?'] "&ᓷ&".data
  let p7 := prSub p6.1 p6.2 "? ".data "&ᓸ&".data
  if mtype != "single" then (prSub p7.1 p7.2 ['\''] "&⎋&".data).1
  else p7.1

/-- Go `punctuationReplacer.replacePunctuation(matches)`: escape the
    global text, process each match in order, unescape the result. -/
def replacePunctuation (mtype : String) (ms : List (List Char))
    (text : List Char) : List Char :=
  subEscapeRegexReservedCharacters
    (ms.foldl (prOne mtype) (escapeRegexReservedCharacters text))

/-- Go `subPat(text, mtype, pat)`: candidates are the whitespace-trimmed
    matches of `pat` in `text`; they are handed to the punctuation
    replacer. -/
def subPat (text : List Char) (mtype : String) (re : RE) : List Char :=
  replacePunctuation mtype ((findAll text re).map goTrimSpace) text

/-- Go `replaceBetweenQuotes(text)`: the six span kinds in source order. -/
def replaceBetweenQuotes (text : List Char) : List Char :=
  let t1 := subPat text "single" betweenSingleQuotesRE
  let t2 := subPat t1 "double" betweenDoubleQuotesRE
  let t3 := subPat t2 "double" betweenSquareBracketsRE
  let t4 := subPat t3 "double" betweenParensRE
  let t5 := subPat t4 "double" betweenArrowQuotesRE
  subPat t5 "double" betweenSmartQuotesRE

/-!  The public segmenter type (source head of `pragmatic.go`). -/

/-- The `languageProcessor` interface: anything exposing
    `process(text) -> sentences`. -/
structure languageProcessor where
  process : String → List String

/-- `PragmaticSegmenter` holds a `processor languageProcessor` interface
    field; a Go interface value may be nil, modelled by `Option`. -/
structure PragmaticSegmenter where
  processor : Option languageProcessor

/-- `NewPragmaticSegmenter(lang)` returns `&PragmaticSegmenter{}`: the
    composite literal leaves `processor` as the zero value of an interface
    type, which is nil; `lang` is not consulted. -/
def NewPragmaticSegmenter (lang : String) : PragmaticSegmenter :=
  { processor := none }

/-- `Tokenize(text)` calls `p.processor.process(text)`; calling a method
    on a nil interface value panics, modelled as `none`. -/
def PragmaticSegmenter.Tokenize (p : PragmaticSegmenter) (text : String) :
    Option (List String) :=
  p.processor.map fun lp => lp.process text

/-- A rule violating the non-reapplication invariant of the data model:
    pattern `(a)` with replacement `"a"` — after the substitution the text
    is unchanged, so the pattern still matches at the same position. -/
def badRule : Rule := { Pattern := .group 1 (.lit 'a'), Replacement := ['a'] }

/-- The common shape of the four AM/PM rules: pattern
    `x∯y(∯)\s[A-Z]` with replacement `"."`.  Substituting the four
    letter pairs (`P M`, `A M`, `p m`, `a m`) yields exactly
    `upperCasePmRule`, `upperCaseAmRule`, `lowerCasePmRule` and
    `lowerCaseAmRule` (proved definitionally in the C8 theorem). -/
def amPmRule (x y : Char) : Rule :=
  { Pattern := .seq (.lit x)
      (.seq (.lit '∯')
        (.seq (.lit y)
          (.seq (.group 1 (.lit '∯')) (.seq (.cls goSpace) (.cls goUpper)))))
    Replacement := ['.'] }

/-- The text contains, starting at position `i`, the marker-separated
    pattern `x∯y∯` followed by a whitespace character and an uppercase
    letter — an occurrence of `amPmRule x y`'s pattern. -/
def amPmPatternAt (x y : Char) (t : List Char) (i : Nat) : Bool :=
  (t[i]? == some x) && (t[i+1]? == some '∯') && (t[i+2]? == some y) &&
  (t[i+3]? == some '∯') && (t[i+4]?.any goSpace) && (t[i+5]?.any goUpper)

/-!  Helper lemmas. -/

/-- The element `head?` returns belongs to the list. -/
theorem head_opt_mem {α : Type} {l : List α} {x : α} (h : l.head? = some x) :
    x ∈ l := by
  cases l with
  | nil => simp at h
  | cons a t =>
    simp at h
    simp [h]

/-- Closed form of the matcher on `periodBeforeNumberRule`'s pattern
    `(\.)\d` at any fuel of the shape `f+3`. -/
theorem mre_period_eq (t : List Char) (f i : Nat) :
    mre t (f+3) periodBeforeNumberRule.Pattern i =
      match t[i]? with
      | some c =>
        if c == '.' then
          match t[i+1]? with
          | some d => if goDigit d then [(i+2, [(1, i, i+1)])] else []
          | none => []
        else []
      | none => [] := by
  simp only [periodBeforeNumberRule, mre]
  cases t[i]? with
  | none => simp
  | some c =>
    by_cases hc : (c == '.') = true
    · simp [hc]
      cases t[i+1]? with
      | none => simp
      | some d =>
        by_cases hd : goDigit d = true
        · simp [hd]
        · simp [hd]
    · simp [hc]

/-- Every match of `periodBeforeNumberRule`'s pattern captures exactly the
    period at its start position. -/
theorem mre_period_char (t : List Char) (f i : Nat) (r : Nat × Caps)
    (hr : r ∈ mre t (f+3) periodBeforeNumberRule.Pattern i) :
    r.2 = [(1, i, i+1)] ∧ t[i]? = some '.' := by
  rw [mre_period_eq] at hr
  split at hr
  case h_2 => simp at hr
  case h_1 c heq =>
    split at hr
    case isFalse => simp at hr
    case isTrue hc =>
      split at hr
      case h_2 => simp at hr
      case h_1 d heq2 =>
        split at hr
        case isFalse => simp at hr
        case isTrue hd =>
          simp at hr
          subst hr
          have hcd : c = '.' := by simpa using hc
          exact ⟨rfl, by rw [heq, hcd]⟩

/-- A successful scan returns the preferred match at the found start
    position. -/
theorem scanFrom_matchAt (t : List Char) (re : RE) :
    ∀ sf i s e caps, scanFrom t re sf i = some (s, e, caps) →
      matchAt t re s = some (e, caps) := by
  intro sf
  induction sf with
  | zero => intro i s e caps h; simp [scanFrom] at h
  | succ sf ih =>
    intro i s e caps h
    simp only [scanFrom] at h
    by_cases hi : i ≤ t.length
    · rw [if_pos hi] at h
      cases hm : matchAt t re i with
      | some v =>
        obtain ⟨j, c⟩ := v
        rw [hm] at h
        simp at h
        obtain ⟨h1, h2, h3⟩ := h
        rw [← h1, hm, h2, h3]
      | none =>
        rw [hm] at h
        exact ih _ _ _ _ h
    · rw [if_neg hi] at h; simp at h

/-- Every substitution step of `periodBeforeNumberRule` strictly decreases
    the number of periods in the text: the captured region is a period and
    the replacement marker `∯` is not one. -/
theorem periodRule_step_count (t t' : List Char)
    (h : subStep periodBeforeNumberRule t = .next t') :
    t'.count '.' < t.count '.' := by
  unfold subStep at h
  cases hf : reFind t periodBeforeNumberRule.Pattern with
  | none => rw [hf] at h; simp at h
  | some v =>
    obtain ⟨s0, e0, caps⟩ := v
    rw [hf] at h
    unfold reFind at hf
    have hm := scanFrom_matchAt t _ _ _ _ _ _ hf
    have hmem : (e0, caps) ∈ mre t (mreFuel t periodBeforeNumberRule.Pattern)
        periodBeforeNumberRule.Pattern s0 := head_opt_mem hm
    have hfuel : mreFuel t periodBeforeNumberRule.Pattern = (5 * t.length + 7) + 3 := by
      simp [mreFuel, RE.size, periodBeforeNumberRule]
      ring
    rw [hfuel] at hmem
    obtain ⟨hcaps, hdot⟩ := mre_period_char t _ s0 (e0, caps) hmem
    simp only at hcaps
    rw [hcaps] at h
    have hmg : (periodBeforeNumberRule.Pattern.maxGroup == 0) = false := rfl
    rw [hmg] at h
    have hlook : lookupGroup 1 [(1, s0, s0 + 1)] = some (s0, s0 + 1) := rfl
    simp only [Bool.false_eq_true, if_false, hlook] at h
    have hrepl : List.count '.' periodBeforeNumberRule.Replacement = 0 := rfl
    have ht' : t' = t.take s0 ++ periodBeforeNumberRule.Replacement ++ t.drop (s0 + 1) := by
      injection h with hh
      exact hh.symm
    obtain ⟨hlen, hget⟩ := List.getElem?_eq_some.mp hdot
    have hsplit : t.count '.' = (t.take s0).count '.' + (('.' : Char) :: t.drop (s0+1)).count '.' := by
      conv_lhs => rw [← List.take_append_drop s0 t]
      rw [List.count_append]
      rw [List.drop_eq_getElem_cons hlen, hget]
    rw [ht', List.count_append, List.count_append, hrepl]
    rw [hsplit]
    simp [List.count_cons]

/-- Fuel exceeding a step-decreasing measure is enough for `Rule.Sub`'s
    loop to reach a terminal result (normal return or panic). -/
theorem subAux_terminates_of_measure (r : Rule) (μ : List Char → Nat)
    (hμ : ∀ t t', subStep r t = .next t' → μ t' < μ t) :
    ∀ fuel t, μ t < fuel → subAux r fuel t ≠ .outOfFuel := by
  intro fuel
  induction fuel with
  | zero => intro t ht; exact absurd ht (Nat.not_lt_zero _)
  | succ f ih =>
    intro t ht
    have hstep : subAux r (f+1) t = match subStep r t with
        | .noMatch => .ok t
        | .panicked => .panicked
        | .next t' => subAux r f t' := rfl
    rw [hstep]
    cases hs : subStep r t with
    | noMatch => simp
    | panicked => simp
    | next t' => exact ih t' (by have := hμ t t' hs; omega)

/-- An escaped text never starts with a reserved character (it starts with
    a backslash or an unescaped ordinary character). -/
theorem escape_head_not_reserved (t : List Char) (b : Char)
    (h : (escapeRegexReservedCharacters t).head? = some b) :
    reservedChar b = false := by
  cases t with
  | nil => simp [escapeRegexReservedCharacters] at h
  | cons c r =>
    by_cases hc : reservedChar c = true
    · simp [escapeRegexReservedCharacters, hc] at h
      rw [← h]
      rfl
    · have hc' : reservedChar c = false := by simpa using hc
      simp [escapeRegexReservedCharacters, hc'] at h
      rw [← h]
      exact hc'

/-- Unescaping exactly reverses escaping on every string. -/
theorem unescape_escape (t : List Char) :
    subEscapeRegexReservedCharacters (escapeRegexReservedCharacters t) = t := by
  induction t with
  | nil => rfl
  | cons c r ih =>
    by_cases hc : reservedChar c = true
    · have he : escapeRegexReservedCharacters (c :: r)
          = '\\' :: c :: escapeRegexReservedCharacters r := by
        simp [escapeRegexReservedCharacters, hc]
      rw [he]
      have hu : subEscapeRegexReservedCharacters ('\\' :: c :: escapeRegexReservedCharacters r)
          = if ('\\' == '\\' && reservedChar c) = true then
              c :: subEscapeRegexReservedCharacters (escapeRegexReservedCharacters r)
            else
              '\\' :: subEscapeRegexReservedCharacters (c :: escapeRegexReservedCharacters r) := rfl
      rw [hu]
      simp [hc, ih]
    · have hc' : reservedChar c = false := by simpa using hc
      have he : escapeRegexReservedCharacters (c :: r)
          = c :: escapeRegexReservedCharacters r := by
        simp [escapeRegexReservedCharacters, hc']
      rw [he]
      cases hE : escapeRegexReservedCharacters r with
      | nil =>
        have hr : r = [] := by rw [← ih, hE]; rfl
        subst hr
        rfl
      | cons b L =>
        have hb : reservedChar b = false :=
          escape_head_not_reserved r b (by rw [hE]; rfl)
        have hu : subEscapeRegexReservedCharacters (c :: b :: L)
            = if (c == '\\' && reservedChar b) = true then
                b :: subEscapeRegexReservedCharacters L
              else
                c :: subEscapeRegexReservedCharacters (b :: L) := rfl
        rw [hu]
        simp only [hb, Bool.and_false, Bool.false_eq_true, if_false]
        rw [← hE, ih]

/-- A verified Boolean text decomposition from `isPrefixOf`. -/
theorem prefix_decomp {s t : List Char} (h : s.isPrefixOf t = true) :
    s ++ t.drop s.length = t := by
  induction s generalizing t with
  | nil => simp
  | cons a s ih =>
    cases t with
    | nil => simp [List.isPrefixOf] at h
    | cons b t' =>
      simp only [List.isPrefixOf, Bool.and_eq_true, beq_iff_eq] at h
      obtain ⟨h1, h2⟩ := h
      subst h1
      simpa using ih h2

/-- Flat-mapping singletons is the identity. -/
theorem flatMap_pure (l : List Char) : (l.flatMap fun c => [c]) = l := by
  induction l with
  | nil => rfl
  | cons c r ih => simp [ih]

/-- Replacing occurrences of a non-empty string by itself changes
    nothing (auxiliary, fuel-explicit form). -/
theorem goReplaceAux_self (s : List Char) (hs : s ≠ []) :
    ∀ fuel t, t.length < fuel → goReplaceAux s s fuel t = t := by
  intro fuel
  induction fuel with
  | zero => intro t ht; exact absurd ht (Nat.not_lt_zero _)
  | succ f ih =>
    intro t ht
    cases t with
    | nil => rfl
    | cons c cs =>
      have hslen : 1 ≤ s.length := by
        cases s with
        | nil => exact absurd rfl hs
        | cons x xs => simp
      have heq : goReplaceAux s s (f+1) (c :: cs)
          = if s.isPrefixOf (c :: cs) = true then
              s ++ goReplaceAux s s f ((c :: cs).drop s.length)
            else
              c :: goReplaceAux s s f cs := rfl
      rw [heq]
      by_cases hp : s.isPrefixOf (c :: cs) = true
      · rw [if_pos hp]
        have hlen : ((c :: cs).drop s.length).length < f := by
          simp only [List.length_drop, List.length_cons]
          simp only [List.length_cons] at ht
          omega
        rw [ih _ hlen]
        exact prefix_decomp hp
      · rw [if_neg hp]
        have hcs : cs.length < f := by
          simp only [List.length_cons] at ht
          omega
        rw [ih _ hcs]

/-- `strings.Replace(t, s, s, -1) = t` for every `t` and `s`. -/
theorem goReplace_self (t s : List Char) : goReplace t s s = t := by
  by_cases hs : s.isEmpty = true
  · have hnil : s = [] := by
      cases s with
      | nil => rfl
      | cons a r => simp [List.isEmpty] at hs
    subst hnil
    simp [goReplace, List.isEmpty, flatMap_pure]
  · have hs' : s.isEmpty = false := by simpa using hs
    have hne : s ≠ [] := by
      cases s with
      | nil => simp [List.isEmpty] at hs'
      | cons a r => simp
    simp only [goReplace, hs', Bool.false_eq_true, if_false]
    exact goReplaceAux_self s hne _ t (Nat.lt_succ_self _)

/-- Replacing every occurrence of the single character `c` by a string not
    containing `c` removes all occurrences of `c`. -/
theorem goReplaceAux_single_not_mem (c : Char) (b : List Char) (hb : c ∉ b) :
    ∀ fuel t, t.length < fuel → c ∉ goReplaceAux [c] b fuel t := by
  intro fuel
  induction fuel with
  | zero => intro t ht; exact absurd ht (Nat.not_lt_zero _)
  | succ f ih =>
    intro t ht
    cases t with
    | nil => simp [goReplaceAux]
    | cons d cs =>
      have hlen : cs.length < f := by
        simp only [List.length_cons] at ht
        omega
      have heq : goReplaceAux [c] b (f+1) (d :: cs)
          = if ([c].isPrefixOf (d :: cs)) = true then
              b ++ goReplaceAux [c] b f ((d :: cs).drop ([c] : List Char).length)
            else
              d :: goReplaceAux [c] b f cs := rfl
      rw [heq]
      by_cases hp : ([c].isPrefixOf (d :: cs)) = true
      · rw [if_pos hp]
        intro hmem
        rcases List.mem_append.mp hmem with h1 | h2
        · exact hb h1
        · have hdr : (d :: cs).drop ([c] : List Char).length = cs := by simp
          rw [hdr] at h2
          exact ih cs hlen h2
      · rw [if_neg hp]
        have hdc : d ≠ c := by
          intro hdc
          apply hp
          simp [List.isPrefixOf, hdc]
        intro hmem
        rcases List.mem_cons.mp hmem with h1 | h2
        · exact hdc h1.symm
        · exact ih cs hlen h2

/-- A text without `?` has no occurrence of `"? "` either, so the
    replacement is the identity on it (at every fuel). -/
theorem goReplaceAux_no_qspace (b : List Char) :
    ∀ fuel t, '?' ∉ t → goReplaceAux ("? ".data) b fuel t = t := by
  intro fuel
  induction fuel with
  | zero =>
    intro t h
    cases t with
    | nil => rfl
    | cons d cs => rfl
  | succ f ih =>
    intro t h
    cases t with
    | nil => rfl
    | cons d cs =>
      have hd : ¬ d = '?' := by
        intro he
        exact h (by simp [he])
      have hcs : '?' ∉ cs := fun hm => h (List.mem_cons_of_mem d hm)
      have hp : (("? ".data).isPrefixOf (d :: cs)) = false := by
        show (('?' == d) && ((' ' :: []).isPrefixOf cs)) = false
        have h3 : ('?' == d) = false := beq_eq_false_iff_ne.mpr (fun he => hd he.symm)
        rw [h3, Bool.false_and]
      have heq : goReplaceAux ("? ".data) b (f+1) (d :: cs)
          = if (("? ".data).isPrefixOf (d :: cs)) = true then
              b ++ goReplaceAux ("? ".data) b f ((d :: cs).drop ("? ".data : List Char).length)
            else
              d :: goReplaceAux ("? ".data) b f cs := rfl
      rw [heq, hp]
      simp only [Bool.false_eq_true, if_false]
      rw [ih cs hcs]

/-- The common AM/PM pattern has size 12, so `mreFuel` supplies fuel of
    the shape `k + 7`, enough for the characterization below. -/
theorem amPm_fuel (x y : Char) (t : List Char) :
    mreFuel t (amPmRule x y).Pattern = (13 * t.length + 19) + 7 := by
  simp [mreFuel, RE.size, amPmRule]
  ring

/-- Closed form of the matcher on `amPmRule x y`'s pattern at any fuel of
    the shape `f+7`: it matches at `i` exactly when the marker-separated
    pattern occurs there, and then captures exactly the second marker (the
    one adjoining `y`). -/
theorem mre_ampm_eq (x y : Char) (t : List Char) (f i : Nat) :
    mre t (f+7) (amPmRule x y).Pattern i
      = if amPmPatternAt x y t i then [(i+6, [(1, i+3, i+4)])] else [] := by
  simp only [amPmRule, mre]
  cases h0 : t[i]? with
  | none => simp [amPmPatternAt, h0]
  | some a =>
    by_cases ha : (a == x) = true
    · simp only [ha, if_true, List.map_cons, List.map_nil, List.flatMap_cons,
        List.flatMap_nil, List.append_nil, List.nil_append]
      cases h1 : t[i+1]? with
      | none => simp [amPmPatternAt, h0, h1]
      | some b =>
        by_cases hb : (b == '∯') = true
        · simp only [hb, if_true, List.map_cons, List.map_nil, List.flatMap_cons,
            List.flatMap_nil, List.append_nil, List.nil_append]
          cases h2 : t[i+1+1]? with
          | none => simp [amPmPatternAt, h0, h1, h2, ha, hb]
          | some c =>
            by_cases hc : (c == y) = true
            · simp only [hc, if_true, List.map_cons, List.map_nil, List.flatMap_cons,
                List.flatMap_nil, List.append_nil, List.nil_append]
              cases h3 : t[i+1+1+1]? with
              | none => simp [amPmPatternAt, h0, h1, h2, h3, ha, hb, hc]
              | some d =>
                by_cases hd : (d == '∯') = true
                · simp only [hd, if_true, List.map_cons, List.map_nil, List.flatMap_cons,
                    List.flatMap_nil, List.append_nil, List.nil_append]
                  cases h4 : t[i+1+1+1+1]? with
                  | none => simp [amPmPatternAt, h0, h1, h2, h3, h4, ha, hb, hc, hd]
                  | some w =>
                    by_cases hw : goSpace w = true
                    · simp only [hw, if_true, List.map_cons, List.map_nil, List.flatMap_cons,
                        List.flatMap_nil, List.append_nil, List.nil_append]
                      cases h5 : t[i+1+1+1+1+1]? with
                      | none => simp [amPmPatternAt, h0, h1, h2, h3, h4, h5, ha, hb, hc, hd, hw]
                      | some u =>
                        by_cases hu : goUpper u = true
                        · simp [amPmPatternAt, h0, h1, h2, h3, h4, h5, ha, hb, hc, hd, hw, hu,
                            Option.any]
                        · simp [amPmPatternAt, h0, h1, h2, h3, h4, h5, ha, hb, hc, hd, hw, hu,
                            Option.any]
                    · simp [amPmPatternAt, h0, h1, h2, h3, h4, ha, hb, hc, hd, hw, Option.any]
                · simp [amPmPatternAt, h0, h1, h2, h3, ha, hb, hc, hd]
            · simp [amPmPatternAt, h0, h1, h2, ha, hb, hc]
        · simp [amPmPatternAt, h0, h1, ha, hb]
    · simp [amPmPatternAt, h0, ha]

/-- Every match of `amPmRule x y`'s pattern sits on an occurrence of the
    marker-separated pattern and captures the marker adjoining `y`. -/
theorem mre_ampm_char (x y : Char) (t : List Char) (f i : Nat) (r : Nat × Caps)
    (hr : r ∈ mre t (f+7) (amPmRule x y).Pattern i) :
    amPmPatternAt x y t i = true ∧ r = (i+6, [(1, i+3, i+4)]) := by
  rw [mre_ampm_eq] at hr
  by_cases hp : amPmPatternAt x y t i = true
  · rw [if_pos hp] at hr
    simp at hr
    exact ⟨hp, hr⟩
  · rw [if_neg hp] at hr
    simp at hr

/-- A failed scan means the pattern matches at none of the scanned
    positions. -/
theorem scanFrom_complete (t : List Char) (re : RE) :
    ∀ sf j, scanFrom t re sf j = none →
      ∀ i, j ≤ i → i < j + sf → i ≤ t.length → matchAt t re i = none := by
  intro sf
  induction sf with
  | zero => intro j h i h1 h2 h3; omega
  | succ sf ih =>
    intro j h i h1 h2 h3
    simp only [scanFrom] at h
    by_cases hj : j ≤ t.length
    · rw [if_pos hj] at h
      cases hm : matchAt t re j with
      | some v => rw [hm] at h; obtain ⟨v1, v2⟩ := v; simp at h
      | none =>
        rw [hm] at h
        by_cases hij : i = j
        · rw [hij]; exact hm
        · exact ih (j+1) h i (by omega) (by omega) h3
    · rw [if_neg hj] at h
      omega

/-- On every text containing the marker-separated pattern anywhere, the
    AM/PM rule fires: its loop body performs a substitution (it neither
    misses nor panics). -/
theorem ampm_fires (x y : Char) (t : List Char) (i : Nat)
    (h : amPmPatternAt x y t i = true) :
    ∃ t', subStep (amPmRule x y) t = .next t' := by
  have hi : i < t.length := by
    have h0 : t[i]? = some x := by
      simp only [amPmPatternAt, Bool.and_eq_true, beq_iff_eq] at h
      exact h.1.1.1.1.1
    exact (List.getElem?_eq_some.mp h0).1
  have hne : mre t ((13 * t.length + 19) + 7) (amPmRule x y).Pattern i
      = [(i+6, [(1, i+3, i+4)])] := by
    rw [mre_ampm_eq, if_pos h]
  have hmA : matchAt t (amPmRule x y).Pattern i
      = some (i+6, [(1, i+3, i+4)]) := by
    unfold matchAt
    rw [amPm_fuel, hne]
    rfl
  unfold subStep
  cases hf : reFind t (amPmRule x y).Pattern with
  | none =>
    exfalso
    unfold reFind at hf
    have hnone := scanFrom_complete t _ _ 0 hf i (Nat.zero_le i) (by omega) (by omega)
    rw [hmA] at hnone
    exact Option.noConfusion hnone
  | some v =>
    obtain ⟨s0, e0, caps⟩ := v
    unfold reFind at hf
    have hm := scanFrom_matchAt t _ _ _ _ _ _ hf
    have hmem : (e0, caps) ∈ mre t (mreFuel t (amPmRule x y).Pattern)
        (amPmRule x y).Pattern s0 := head_opt_mem hm
    rw [amPm_fuel] at hmem
    obtain ⟨hp0, hr0⟩ := mre_ampm_char x y t _ s0 (e0, caps) hmem
    have hcaps : caps = [(1, s0+3, s0+4)] := by
      have hsnd := congrArg Prod.snd hr0
      simpa using hsnd
    have hmg : ((amPmRule x y).Pattern.maxGroup == 0) = false := rfl
    rw [hmg]
    have hlook : lookupGroup 1 [(1, s0+3, s0+4)] = some (s0+3, s0+4) := rfl
    rw [hcaps]
    simp only [Bool.false_eq_true, if_false, hlook]
    exact ⟨_, rfl⟩

/-- Every substitution step of the AM/PM rule rewrites exactly the marker
    adjoining `y` of an occurrence of the pattern into a literal period,
    keeps every other character (the take/drop decomposition), and in
    particular leaves the marker between the two letters in place. -/
theorem ampm_step_char (x y : Char) (t t' : List Char)
    (h : subStep (amPmRule x y) t = .next t') :
    ∃ i, amPmPatternAt x y t i = true
      ∧ t' = t.take (i+3) ++ ['.'] ++ t.drop (i+4)
      ∧ t'[i+1]? = some '∯' := by
  unfold subStep at h
  cases hf : reFind t (amPmRule x y).Pattern with
  | none => rw [hf] at h; simp at h
  | some v =>
    obtain ⟨s0, e0, caps⟩ := v
    rw [hf] at h
    unfold reFind at hf
    have hm := scanFrom_matchAt t _ _ _ _ _ _ hf
    have hmem : (e0, caps) ∈ mre t (mreFuel t (amPmRule x y).Pattern)
        (amPmRule x y).Pattern s0 := head_opt_mem hm
    rw [amPm_fuel] at hmem
    obtain ⟨hp0, hr0⟩ := mre_ampm_char x y t _ s0 (e0, caps) hmem
    have hcaps : caps = [(1, s0+3, s0+4)] := by
      have hsnd := congrArg Prod.snd hr0
      simpa using hsnd
    rw [hcaps] at h
    have hmg : ((amPmRule x y).Pattern.maxGroup == 0) = false := rfl
    rw [hmg] at h
    have hlook : lookupGroup 1 [(1, s0+3, s0+4)] = some (s0+3, s0+4) := rfl
    simp only [Bool.false_eq_true, if_false, hlook] at h
    have ht' : t' = t.take (s0+3) ++ ['.'] ++ t.drop (s0+4) := by
      injection h with hh
      exact hh.symm
    refine ⟨s0, hp0, ht', ?_⟩
    have h1 : t[s0+1]? = some '∯' := by
      simp only [amPmPatternAt, Bool.and_eq_true, beq_iff_eq] at hp0
      exact hp0.1.1.1.1.2
    have h3 : t[s0+3]? = some '∯' := by
      simp only [amPmPatternAt, Bool.and_eq_true, beq_iff_eq] at hp0
      exact hp0.1.1.2
    have hlen3 : s0 + 3 < t.length := (List.getElem?_eq_some.mp h3).1
    have htake : (t.take (s0+3)).length = s0 + 3 := by
      rw [List.length_take]
      omega
    rw [ht']
    rw [List.append_assoc]
    rw [List.getElem?_append]
    rw [htake]
    rw [if_pos (by omega)]
    rw [List.getElem?_take]
    rw [if_pos (by omega)]
    exact h1

/-- Every substitution step of the AM/PM rule strictly decreases the
    number of `∯` markers (it turns one into a period). -/
theorem ampm_step_count (x y : Char) (t t' : List Char)
    (h : subStep (amPmRule x y) t = .next t') :
    t'.count '∯' < t.count '∯' := by
  obtain ⟨i, hp, ht', hkeep⟩ := ampm_step_char x y t t' h
  have h3 : t[i+3]? = some '∯' := by
    simp only [amPmPatternAt, Bool.and_eq_true, beq_iff_eq] at hp
    exact hp.1.1.2
  obtain ⟨hlen, hget⟩ := List.getElem?_eq_some.mp h3
  have hsplit : t.count '∯' = (t.take (i+3)).count '∯'
      + (('∯' : Char) :: t.drop (i+4)).count '∯' := by
    conv_lhs => rw [← List.take_append_drop (i+3) t]
    rw [List.count_append]
    rw [List.drop_eq_getElem_cons hlen, hget]
  rw [ht', List.count_append, List.count_append]
  rw [hsplit]
  simp [List.count_cons]

/-!  Claim theorems. -/

/-- C1: captured-region semantics.  `Rule.Sub` replaces only capturing
    group 1's region (third conjunct:
    `singleUpperCaseLetterAtStartOfLineRule`, whose pattern has a group,
    masks exactly the captured period of `"A. b"`), but contrary to the
    claim a pattern defining no capturing region does not replace the
    whole match: on every input its pattern matches,
    `singleUpperCaseLetterRule` (`\s[A-Z]\.\s`) and `otherThreePeriodRule`
    (`\.\.\.`) make the loop panic — Go indexes `loc[2]` of a two-element
    slice — instead of returning a result. -/
theorem c1_no_capture_region_panics :
    SubEvalsTo singleUpperCaseLetterRule " A. b".data .panicked
    ∧ SubEvalsTo otherThreePeriodRule "Wait...".data .panicked
    ∧ SubEvalsTo singleUpperCaseLetterAtStartOfLineRule "A. b".data
        (.ok "A∯ b".data) :=
  ⟨⟨1, by decide⟩, ⟨1, by decide⟩, ⟨3, by decide⟩⟩

/-- C2 (counterexample): `Rule.Sub` has no bounded-iteration safeguard.
    On `badRule` (pattern `(a)`, replacement `"a"`) — a rule whose pattern
    still matches after its replacement — and the one-character text
    `"a"`, every iteration reproduces the same text, so the loop runs
    forever: it exhausts every iteration bound instead of terminating in
    `O(length)` iterations or surfacing a rule-definition fault. -/
theorem c2_no_safeguard_counterexample : LoopsForever badRule "a".data := by
  have h : subStep badRule "a".data = .next "a".data := by decide
  intro fuel
  induction fuel with
  | zero => rfl
  | succ f ih =>
    have hstep : subAux badRule (f+1) "a".data = match subStep badRule "a".data with
        | .noMatch => .ok "a".data
        | .panicked => .panicked
        | .next t' => subAux badRule f t' := rfl
    rw [hstep, h]
    exact ih

/-- C2 (amended): for a rule each of whose substitution steps strictly
    decreases some natural-number measure of the text, `Rule.Sub`'s loop
    reaches a terminal result within `measure + 1` iterations (first
    conjunct); in particular `periodBeforeNumberRule` terminates within
    `(number of periods) + 1` iterations (second conjunct), and the number
    of periods is at most the text's length (third conjunct) — an
    `O(length)` bound.  There is no bounded-iteration safeguard in the
    code: a rule violating the non-reapplication invariant loops forever
    (see the counterexample) rather than being surfaced as a
    rule-definition fault. -/
theorem c2_rule_sub_termination :
    (∀ (r : Rule) (μ : List Char → Nat),
        (∀ t t', subStep r t = .next t' → μ t' < μ t) →
        ∀ fuel t, μ t < fuel → subAux r fuel t ≠ .outOfFuel)
    ∧ (∀ (t : List Char) (fuel : Nat), t.count '.' < fuel →
        subAux periodBeforeNumberRule fuel t ≠ .outOfFuel)
    ∧ (∀ t : List Char, t.count '.' ≤ t.length) :=
  ⟨fun r μ hμ fuel t h => subAux_terminates_of_measure r μ hμ fuel t h,
   fun t fuel h =>
     subAux_terminates_of_measure periodBeforeNumberRule (fun u => u.count '.')
       (fun u u' hu => periodRule_step_count u u' hu) fuel t h,
   fun t => List.count_le_length '.' t⟩

/-- C2 (witness): `periodBeforeNumberRule` on `"1.2"` (one period)
    terminates within two iterations. -/
theorem c2_rule_sub_termination_witness :
    subAux periodBeforeNumberRule 2 "1.2".data ≠ .outOfFuel :=
  c2_rule_sub_termination.2.1 "1.2".data 2 (by decide)

/-- C3: quote protection on the spec's example.  `replaceBetweenQuotes`
    turns `He said, "Stop. Go." Then left.` into
    `He said, "Stop∯ Go∯" Then left.`: both periods inside the
    double-quoted span become the reserved period marker `∯` (mirrored
    into the full text's only occurrence of the span), and every character
    outside the quotation — the final period after `left` included — is
    unchanged. -/
theorem c3_quote_protection_example :
    replaceBetweenQuotes "He said, \"Stop. Go.\" Then left.".data
      = "He said, \"Stop∯ Go∯\" Then left.".data := by decide

/-- C4: possessive-abbreviation masking.  `possessiveAbbreviationRule`
    masks the period of `"Corp.'s next"` (period + `'s` + whitespace) and
    returns normally, but on an input ending exactly in `"Corp.'s"` (the
    end-of-text alternative, captured by group 2) `Rule.Sub` still reads
    group 1's indices, which are `-1`, and panics (`text[:-1]`) instead of
    masking the period as the claim states. -/
theorem c4_possessive_abbreviation_eval :
    SubEvalsTo possessiveAbbreviationRule "Corp.'s next".data
      (.ok "Corp∯'s next".data)
    ∧ SubEvalsTo possessiveAbbreviationRule "Corp.'s".data .panicked :=
  ⟨⟨3, by decide⟩, ⟨1, by decide⟩⟩

/-- C5 (counterexample): the marker for four consecutive periods preceding
    an uppercase letter (`fourConsecutiveRule`) is not distinct from the
    generic three-period ellipsis marker (`otherThreePeriodRule`): both
    replacement strings are `"ƪ"`, refuting the claimed pairwise
    distinctness. -/
theorem c5_marker_collision_counterexample :
    fourConsecutiveRule.Replacement = otherThreePeriodRule.Replacement := rfl

/-- C5 (amended): the five ellipsis-protection rules use exactly four
    distinct markers — `"☏."`, `"ƪ"`, `"♟"`, `"♝"` are pairwise distinct —
    and `fourConsecutiveRule` shares the marker `"ƪ"` with
    `otherThreePeriodRule`. -/
theorem c5_ellipsis_markers :
    allEllipsesRules.map Rule.Replacement
      = ["☏.".data, "ƪ".data, "♟".data, "♝".data, "ƪ".data]
    ∧ (["☏.".data, "ƪ".data, "♟".data, "♝".data] : List (List Char)).Pairwise (· ≠ ·) :=
  ⟨rfl, by decide⟩

/-- C6: skip-on-no-match identity.  When a span kind's delimiting pattern
    finds no match in the text (absent or unbalanced delimiters), `subPat`
    returns the text exactly unchanged — the candidate list is empty, so
    the only effect is the entry escaping of the regex-reserved characters
    `( ) [ ] -`, which the exit unescaping reverses exactly; unescape
    composed with escape is the identity on every string (second
    conjunct). -/
theorem c6_no_match_skip_identity :
    (∀ (text : List Char) (mtype : String) (re : RE),
       findAll text re = [] → subPat text mtype re = text)
    ∧ ∀ s : List Char,
        subEscapeRegexReservedCharacters (escapeRegexReservedCharacters s) = s := by
  refine ⟨?_, unescape_escape⟩
  intro text mtype re h
  simp [subPat, h, replacePunctuation, unescape_escape]

/-- C6 (witness): the unbalanced parenthesis text `"(abc"` produces no
    match for the parenthesis kind and passes through `subPat` unchanged
    (its `(` is escaped on entry and unescaped on exit). -/
theorem c6_no_match_skip_identity_witness :
    subPat "(abc".data "double" betweenParensRE = "(abc".data :=
  c6_no_match_skip_identity.1 "(abc".data "double" betweenParensRE (by decide)

/-- C7: number protection of decimals.  The five number rules applied in
    their fixed order to `The value is 3.14 today.` replace exactly the
    period inside `3.14` with the reserved period marker `∯` and leave
    every other character, the sentence-final period included,
    unchanged. -/
theorem c7_number_protection_example :
    RulesEvalTo allNumberRules "The value is 3.14 today.".data
      (.ok "The value is 3∯14 today.".data) :=
  ⟨3, by decide⟩

/-- C8: AM/PM unmasking.  All four case variants share the shape
    `amPmRule x y` (fourth conjunct, definitional), so the universal parts
    cover each of the four rules, which therefore fire independently of
    one another (fifth conjunct shows all four firing on one text).  For
    every text containing the marker-separated pattern `x∯y∯` followed by
    whitespace and an uppercase letter — with arbitrary surrounding text —
    the rule fires (first conjunct); every substitution it performs
    replaces exactly the marker adjoining the `y` (the `M`) with a literal
    period, leaves every other character in place, and in particular the
    marker between the two letters stays (second conjunct); and the
    rule's loop terminates on every text within `(number of markers) + 1`
    iterations (third conjunct). -/
theorem c8_ampm_unmask :
    (∀ (x y : Char) (t : List Char) (i : Nat), amPmPatternAt x y t i = true →
        ∃ t', subStep (amPmRule x y) t = .next t')
    ∧ (∀ (x y : Char) (t t' : List Char), subStep (amPmRule x y) t = .next t' →
        ∃ i, amPmPatternAt x y t i = true
          ∧ t' = t.take (i+3) ++ ['.'] ++ t.drop (i+4)
          ∧ t'[i+1]? = some '∯')
    ∧ (∀ (x y : Char) (t : List Char) (fuel : Nat), t.count '∯' < fuel →
        subAux (amPmRule x y) fuel t ≠ .outOfFuel)
    ∧ allAmPmRules
        = [amPmRule 'P' 'M', amPmRule 'A' 'M', amPmRule 'p' 'm', amPmRule 'a' 'm']
    ∧ RulesEvalTo allAmPmRules "P∯M∯ A. A∯M∯ B. p∯m∯ C. a∯m∯ D.".data
        (.ok "P∯M. A. A∯M. B. p∯m. C. a∯m. D.".data) :=
  ⟨ampm_fires,
   ampm_step_char,
   fun x y fuel t h =>
     subAux_terminates_of_measure (amPmRule x y) (fun u => u.count '∯')
       (fun u u' hu => ampm_step_count x y u u' hu) t fuel h,
   rfl,
   ⟨3, by decide⟩⟩

/-- C8 (witness): on the text `He left at 5 P∯M∯ Then came back.`, which
    contains the marker-separated pattern at position 13 with arbitrary
    text around it, `upperCasePmRule`'s shape fires. -/
theorem c8_ampm_unmask_witness :
    ∃ t', subStep (amPmRule 'P' 'M') "He left at 5 P∯M∯ Then came back.".data
      = .next t' :=
  c8_ampm_unmask.1 'P' 'M' "He left at 5 P∯M∯ Then came back.".data 13 (by decide)

/-- C9: the public entry point is unusable.  `NewPragmaticSegmenter`
    leaves the `processor` field nil for every language string (and its
    result does not depend on the language), so `Tokenize` invokes
    `process` on a nil `languageProcessor` interface and panics — it can
    never return a sentence list. -/
theorem c9_public_entry_unusable (lang text : String) :
    (NewPragmaticSegmenter lang).processor = none
    ∧ (NewPragmaticSegmenter lang).Tokenize text = none
    ∧ ∀ lang2, NewPragmaticSegmenter lang = NewPragmaticSegmenter lang2 :=
  ⟨rfl, rfl, fun _ => rfl⟩

/-- C9 (witness): instantiated at language `"en"` and text `"Hi."`. -/
theorem c9_public_entry_unusable_witness :
    (NewPragmaticSegmenter "en").Tokenize "Hi." = none :=
  (c9_public_entry_unusable "en" "Hi.").2.1

/-- C10: the `"? "` substitution (sub6) is dead.  The preceding step
    (sub5) replaced every `?` of the span with the question-mark marker,
    so no `"? "` substring remains: the sub6 call returns the span string
    unchanged, and mirroring an unchanged string into the global text
    leaves the text unchanged as well — for every text and every span. -/
theorem c10_sub6_dead_step (text s4 : List Char) :
    prSub text (goReplace s4 ['?'] "&ᓷ&".data) "? ".data "&ᓸ&".data
      = (text, goReplace s4 ['?'] "&ᓷ&".data) := by
  have hb : '?' ∉ "&ᓷ&".data := by decide
  have hq : '?' ∉ goReplace s4 ['?'] "&ᓷ&".data := by
    have he : (['?'] : List Char).isEmpty = false := rfl
    simp only [goReplace, he, Bool.false_eq_true, if_false]
    exact goReplaceAux_single_not_mem '?' _ hb _ s4 (Nat.lt_succ_self _)
  have h1 : goReplace (goReplace s4 ['?'] "&ᓷ&".data) "? ".data "&ᓸ&".data
      = goReplace s4 ['?'] "&ᓷ&".data := by
    have he : ("? ".data : List Char).isEmpty = false := rfl
    simp only [goReplace, he, Bool.false_eq_true, if_false]
    exact goReplaceAux_no_qspace _ _ _ hq
  simp [prSub, h1, goReplace_self]

/-- C10 (witness): instantiated at the text `He L? yes` with span
    `L? yes`: the sub6 step changes neither the span nor the text. -/
theorem c10_sub6_dead_step_witness :
    prSub "He L? yes".data (goReplace "L? yes".data ['?'] "&ᓷ&".data)
        "? ".data "&ᓸ&".data
      = ("He L? yes".data, goReplace "L? yes".data ['?'] "&ᓷ&".data) :=
  c10_sub6_dead_step "He L? yes".data "L? yes".data
